import Mathlib

/-! RDMA benchmark client (`examples/09_perf_rdma/sw/src/simple_client/main.cpp`)

A shallow embedding of `run_write_only` and `main`.  The Coyote thread
(`coyote::cThread`) lives in headers that are not part of the source tree, so
it is a parameter: a `Transport σ` gives the effect of each member function the
driver calls on a thread state `σ`.  The driver threads a `World` through the
calls; besides the thread and the payload buffer the world keeps a ghost
history: every transport call with the thread state it was made in, and every
line written to the console.

The `while` loop that waits for completions has no bound in the source; it is
run with fuel, one unit per iteration, and `RunOutcome.running` is the result
when the fuel is used up while the loop is still going.
-/

namespace SimpleClient

/-! ## Data model -/

/-- The two values of `coyote::CoyoteOper` the client names. -/
inductive CoyoteOper
  | REMOTE_RDMA_WRITE
  | LOCAL_WRITE
  deriving DecidableEq

/-- The scatter-gather descriptor `coyote::rdmaSg`; `main` sets only `.len`
(a 32-bit unsigned byte count). -/
structure rdmaSg where
  len : Nat
  deriving DecidableEq

/-- The buffer `int *mem` points to: its elements, in order. -/
abbrev Mem := List Int

/-- The constant `IS_CLIENT` of the source. -/
def IS_CLIENT : Bool := true

/-- The value of `sizeof(int)`. -/
def sizeofInt : Nat := 4

/-- The value of `EXIT_SUCCESS`. -/
def EXIT_SUCCESS : Nat := 0

/-- The value of `EXIT_FAILURE`. -/
def EXIT_FAILURE : Nat := 1

/-- The conversion of a `uint` to `int` in `mem[i] = i`: the value modulo
`2^32`, read as a two's complement 32-bit integer. -/
def intOfUInt (i : Nat) : Int :=
  if i % 2 ^ 32 < 2 ^ 31 then ((i % 2 ^ 32 : Nat) : Int) else ((i % 2 ^ 32 : Nat) : Int) - 2 ^ 32

/-- The store `mem[i] = v`; `none` when `i` is outside the buffer (undefined
behaviour in the source). -/
def store (mem : Mem) (i : Nat) (v : Int) : Option Mem :=
  if i < mem.length then some (mem.set i v) else none

/-- A call the driver makes on the Coyote thread, with its arguments (`cThread`
is the construction of the thread); a `checkCompleted` also carries the count it
returned, an `initRDMA` whether it returned a buffer. -/
inductive Call
  | cThread
  | initRDMA (size : Nat) (ip : String) (ok : Bool)
  | clearCompleted
  | connSync (client : Bool)
  | invoke (oper : CoyoteOper) (sg : rdmaSg)
  | checkCompleted (oper : CoyoteOper) (ret : Nat)
  deriving DecidableEq

/-- A line written to the console. -/
inductive Out
  /-- The line `std::cout << "client waiting on " << count << " completed writes\n"`. -/
  | waiting (count : Nat)
  /-- The line `std::cout << "cool\n"`. -/
  | cool
  /-- The line `std::cout << "very cool\n"`. -/
  | veryCool
  /-- The banner `HEADER(title)`. -/
  | header (title : String)
  /-- The line `std::cerr << "Error: server IP must be specified with -i\n"`. -/
  | errNoServer
  deriving DecidableEq

/-- The member functions of `coyote::cThread` the client calls, as functions of
the thread state.  `cThread` is the state the constructor leaves; `initRDMA`
answers with the registered buffer, or `none` for a null pointer;
`checkCompleted` answers with the completion count of the given kind. -/
structure Transport (σ : Type) where
  cThread : σ
  initRDMA : Nat → String → σ → Option Mem × σ
  clearCompleted : σ → σ
  connSync : Bool → σ → σ
  invoke : CoyoteOper → rdmaSg → σ → σ
  checkCompleted : CoyoteOper → σ → Nat × σ

/-- The state the driver works on: the Coyote thread, the payload buffer, and
the history so far: the transport calls, each with the thread state it was made
in (for the construction, the state it leaves), and the console output. -/
structure World (σ : Type) where
  thread : σ
  mem : Mem
  trace : List (Call × σ)
  out : List Out
  deriving DecidableEq

/-- How a run of `run_write_only` ends: it returned; it is still in the wait
loop when the fuel is used up; or it stored outside the buffer. -/
inductive RunOutcome (σ : Type)
  | returned (w : World σ)
  | running (w : World σ)
  | undefinedBehaviour
  deriving DecidableEq

/-- How a run of `main` ends: with an exit code; with the uncaught
`std::runtime_error`; still in the wait loop; or after a store outside the
buffer.  Each carries the history of the run. -/
inductive MainOutcome (σ : Type)
  | exit (code : Nat) (trace : List (Call × σ)) (out : List Out)
  | thrown (trace : List (Call × σ)) (out : List Out)
  | running (trace : List (Call × σ)) (out : List Out)
  | undefinedBehaviour
  deriving DecidableEq

/-- The world in which an outcome of `run_write_only` leaves the process. -/
def RunOutcome.world? {σ : Type} : RunOutcome σ → Option (World σ)
  | .returned w => some w
  | .running w => some w
  | .undefinedBehaviour => none

/-! ## Transport calls on a world -/

/-- Record a call made in the current thread state and move to the state `t`. -/
def World.call {σ : Type} (w : World σ) (c : Call) (t : σ) : World σ :=
  { w with thread := t, trace := w.trace ++ [(c, w.thread)] }

/-- Write a line to the console. -/
def World.print {σ : Type} (w : World σ) (o : Out) : World σ :=
  { w with out := w.out ++ [o] }

/-- The call `coyote_thread.clearCompleted()`. -/
def World.clearCompleted {σ : Type} (T : Transport σ) (w : World σ) : World σ :=
  w.call .clearCompleted (T.clearCompleted w.thread)

/-- The call `coyote_thread.connSync(client)`. -/
def World.connSync {σ : Type} (T : Transport σ) (client : Bool) (w : World σ) : World σ :=
  w.call (.connSync client) (T.connSync client w.thread)

/-- The call `coyote_thread.invoke(oper, sg)`. -/
def World.invoke {σ : Type} (T : Transport σ) (oper : CoyoteOper) (sg : rdmaSg) (w : World σ) : World σ :=
  w.call (.invoke oper sg) (T.invoke oper sg w.thread)

/-- The call `coyote_thread.checkCompleted(oper)`: the count and the world after. -/
def World.checkCompleted {σ : Type} (T : Transport σ) (oper : CoyoteOper) (w : World σ) : Nat × World σ :=
  ((T.checkCompleted oper w.thread).1,
    w.call (.checkCompleted oper (T.checkCompleted oper w.thread).1)
      (T.checkCompleted oper w.thread).2)

/-! ## `run_write_only` -/

/-- The loop `for (uint i = 0; i < bound; i++) mem[i] = i;` with
`bound = sg.len / sizeof(int)`: the iterations `0, ..., bound - 1` in increasing
order (`bound` is at most `UINT_MAX / 4`, so `i++` does not wrap), stopping at
the first store outside the buffer. -/
def initLoop : Nat → Mem → Option Mem
  | 0, mem => some mem
  | i + 1, mem => (initLoop i mem).bind fun m => store m i (intOfUInt i)

/-- The loop `for (uint i = 0; i < n_runs; i++) coyote_thread.invoke(REMOTE_RDMA_WRITE, sg);`
(`i` stays below `n_runs`, a `uint`, so `i++` does not wrap). -/
def invokeLoop {σ : Type} (T : Transport σ) (sg : rdmaSg) : Nat → World σ → World σ
  | 0, w => w
  | i + 1, w => (invokeLoop T sg i w).invoke T .REMOTE_RDMA_WRITE sg

/-- The loop `while (coyote_thread.checkCompleted(LOCAL_WRITE) != 1) { ... }`,
one unit of fuel per iteration.  The body queries the count a second time for
the progress line; the one-second sleep leaves the world as it is. -/
def waitLoop {σ : Type} (T : Transport σ) : Nat → World σ → RunOutcome σ
  | 0, w => .running w
  | fuel + 1, w =>
    let w1 := (w.checkCompleted T .LOCAL_WRITE).2
    if (w.checkCompleted T .LOCAL_WRITE).1 != 1 then
      let w2 := (w1.checkCompleted T .LOCAL_WRITE).2
      waitLoop T fuel ((w2.print (.waiting (w1.checkCompleted T .LOCAL_WRITE).1)).print .cool)
    else
      .returned w1

/-- The function `run_write_only(coyote_thread, sg, mem, n_runs)`; the thread
and the buffer are those of the world `w`. -/
def run_write_only {σ : Type} (T : Transport σ) (fuel : Nat) (w : World σ) (sg : rdmaSg) (n_runs : Nat) :
    RunOutcome σ :=
  match initLoop (sg.len / sizeofInt) w.mem with
  | none => .undefinedBehaviour
  | some mem =>
    let w1 : World σ := { w with mem := mem }
    let w2 := w1.clearCompleted T
    let w3 := w2.connSync T IS_CLIENT
    let w4 := invokeLoop T sg n_runs w3
    waitLoop T fuel w4

/-! ## `main` -/

/-- The world in which `main` calls `run_write_only`: the thread has been
constructed in state `t0`, `initRDMA` has returned the buffer `mem` and left
the thread in state `t1`, and the banner has been printed. -/
def roundStart {σ : Type} (size : Nat) (server_ip : String) (t0 t1 : σ) (mem : Mem) : World σ :=
  { thread := t1, mem := mem,
    trace := [(.cThread, t0), (.initRDMA size server_ip true, t0)],
    out := [.header "RDMA BENCHMARK: CLIENT"] }

/-- The function `main`, from the parsed options `server_ip`, `size` and
`n_runs` on. -/
def main {σ : Type} (T : Transport σ) (fuel : Nat) (server_ip : String) (size n_runs : Nat) :
    MainOutcome σ :=
  if server_ip.isEmpty then
    .exit EXIT_FAILURE [] [.errNoServer]
  else
    match T.initRDMA size server_ip T.cThread with
    | (none, _) =>
      .thrown [(.cThread, T.cThread), (.initRDMA size server_ip false, T.cThread)] []
    | (some mem, t1) =>
      match run_write_only T fuel (roundStart size server_ip T.cThread t1 mem)
          { len := size } n_runs with
      | .returned w =>
        let w1 := (w.print .veryCool).connSync T IS_CLIENT
        .exit EXIT_SUCCESS w1.trace w1.out
      | .running w => .running w.trace w.out
      | .undefinedBehaviour => .undefinedBehaviour

/-! ## Reading a history -/

/-- The calls of a history, without the thread states. -/
def calls {σ : Type} (tr : List (Call × σ)) : List Call := tr.map Prod.fst

/-- Whether a call is an `invoke`. -/
def Call.isInvoke : Call → Bool
  | .invoke _ _ => true
  | _ => false

/-- Whether a call is a `connSync`. -/
def Call.isConnSync : Call → Bool
  | .connSync _ => true
  | _ => false

/-- The count a call reported for `LOCAL_WRITE`, when it is such a query. -/
def Call.localWriteCount? : Call → Option Nat
  | .checkCompleted .LOCAL_WRITE n => some n
  | _ => none

/-- The last completion count for `LOCAL_WRITE` a history has observed. -/
def lastObserved {σ : Type} (tr : List (Call × σ)) : Option Nat :=
  ((calls tr).filterMap Call.localWriteCount?).getLast?

/-- The calls a history `tr2` has added to the earlier history `tr`. -/
def callsSince {σ : Type} (tr tr2 : List (Call × σ)) : List Call :=
  (calls tr2).drop tr.length

/-- The progress output of `k` iterations of the wait loop when every query
reports `c`. -/
def progressLines (c : Nat) : Nat → List Out
  | 0 => []
  | k + 1 => Out.waiting c :: Out.cool :: progressLines c k

/-! ## Mock transports -/

/-- A scripted transport: the `q`-th query of the `LOCAL_WRITE` count is
answered with `vals q`; the state is the number of queries answered so far, and
no other call changes it.  `initRDMA` hands out `size / 4` zeroed elements. -/
def seqTransport (vals : Nat → Nat) : Transport Nat where
  cThread := 0
  initRDMA size _ q := (some (List.replicate (size / sizeofInt) 0), q)
  clearCompleted q := q
  connSync _ q := q
  invoke _ _ q := q
  checkCompleted oper q :=
    match oper with
    | .LOCAL_WRITE => (vals q, q + 1)
    | .REMOTE_RDMA_WRITE => (0, q)

/-- The state of the counting mock: the `LOCAL_WRITE` completion counter and
the number of invoked operations still in flight. -/
structure MockState where
  completed : Nat
  inflight : Nat
  deriving DecidableEq

/-- A counting mock: `invoke` puts one operation in flight, a query of the
`LOCAL_WRITE` count first completes up to `rate` operations in flight and then
reports the counter, `clearCompleted` sets the counter to `0`, and `connSync`
changes nothing.  The thread is built with `stale` completions already counted. -/
def mockTransport (rate stale : Nat) : Transport MockState where
  cThread := { completed := stale, inflight := 0 }
  initRDMA size _ s := (some (List.replicate (size / sizeofInt) 0), s)
  clearCompleted s := { s with completed := 0 }
  connSync _ s := s
  invoke _ _ s := { s with inflight := s.inflight + 1 }
  checkCompleted oper s :=
    match oper with
    | .LOCAL_WRITE =>
      (s.completed + min rate s.inflight,
        { completed := s.completed + min rate s.inflight, inflight := s.inflight - min rate s.inflight })
    | .REMOTE_RDMA_WRITE => (0, s)

/-- A counting mock with a slow barrier: as `mockTransport rate 0`, but every
operation in flight completes, and is counted, while `connSync` waits for the
peer.  Its counter grows only when an invoked operation completes, and
`clearCompleted` sets it to `0`. -/
def lateTransport (rate : Nat) : Transport MockState where
  cThread := { completed := 0, inflight := 0 }
  initRDMA size _ s := (some (List.replicate (size / sizeofInt) 0), s)
  clearCompleted s := { s with completed := 0 }
  connSync _ s := { completed := s.completed + s.inflight, inflight := 0 }
  invoke _ _ s := { s with inflight := s.inflight + 1 }
  checkCompleted oper s :=
    match oper with
    | .LOCAL_WRITE =>
      (s.completed + min rate s.inflight,
        { completed := s.completed + min rate s.inflight, inflight := s.inflight - min rate s.inflight })
    | .REMOTE_RDMA_WRITE => (0, s)

/-! ## Concrete inputs -/

/-- A fresh world over a scripted transport: no query answered yet, a buffer of
twenty elements all `7`, an empty history. -/
def demoWorld : World Nat :=
  { thread := 0, mem := List.replicate 20 7, trace := [], out := [] }

/-- A fresh world over the counting mock with `stale` completions already
counted and nothing in flight; the buffer has sixteen elements. -/
def mockWorld (stale : Nat) : World MockState :=
  { thread := { completed := stale, inflight := 0 }, mem := List.replicate 16 0,
    trace := [], out := [] }

/-- The descriptor `{ .len = 64 }` of the default transfer size. -/
def sg64 : rdmaSg := { len := 64 }

/-! ## The initialisation loop -/

theorem initLoop_spec (n : Nat) (mem : Mem) (h : n ≤ mem.length) :
    ∃ m, initLoop n mem = some m ∧ m.length = mem.length ∧
      (∀ i, i < n → m[i]? = some (intOfUInt i)) ∧ (∀ i, n ≤ i → m[i]? = mem[i]?) := by
  induction n with
  | zero => exact ⟨mem, rfl, rfl, fun i hi => absurd hi (Nat.not_lt_zero i), fun _ _ => rfl⟩
  | succ n ih =>
    obtain ⟨m, hm, hlen, hlo, hhi⟩ := ih (Nat.le_of_succ_le h)
    have hn : n < m.length := by omega
    refine ⟨m.set n (intOfUInt n), ?_, ?_, ?_, ?_⟩
    · simp [initLoop, hm, store, hn]
    · simp [hlen]
    · intro i hi
      by_cases hin : i = n
      · subst hin
        simp [List.getElem?_set, hn]
      · rw [List.getElem?_set_ne (Ne.symm hin)]
        exact hlo i (by omega)
    · intro i hi
      rw [List.getElem?_set_ne (by omega)]
      exact hhi i (by omega)

theorem initLoop_none (n : Nat) (mem : Mem) (h : mem.length < n) : initLoop n mem = none := by
  induction n with
  | zero => exact absurd h (Nat.not_lt_zero _)
  | succ n ih =>
    by_cases hn : mem.length < n
    · simp [initLoop, ih hn]
    · obtain ⟨m, hm, hl, -, -⟩ := initLoop_spec n mem (by omega)
      have : ¬ n < m.length := by omega
      simp [initLoop, hm, store, this]

theorem intOfUInt_small (i : Nat) (h : i < 2 ^ 31) : intOfUInt i = (i : Int) := by
  have h1 : i % 2 ^ 32 = i := Nat.mod_eq_of_lt (by omega)
  unfold intOfUInt
  rw [h1, if_pos h]

/-! ## The shape of a round -/

theorem callsSince_append {σ : Type} (tr ext : List (Call × σ)) :
    callsSince tr (tr ++ ext) = calls ext := by
  simp [callsSince, calls]

theorem invokeLoop_front {σ : Type} (T : Transport σ) (sg : rdmaSg) (n : Nat) (w : World σ) :
    invokeLoop T sg (n + 1) w = invokeLoop T sg n (w.invoke T .REMOTE_RDMA_WRITE sg) := by
  induction n with
  | zero => rfl
  | succ n ih =>
    show (invokeLoop T sg (n + 1) w).invoke T .REMOTE_RDMA_WRITE sg = _
    rw [ih]
    rfl

theorem invokeLoop_shape {σ : Type} (T : Transport σ) (sg : rdmaSg) (n : Nat) (w : World σ) :
    ∃ inv, (invokeLoop T sg n w).trace = w.trace ++ inv ∧
      calls inv = List.replicate n (Call.invoke .REMOTE_RDMA_WRITE sg) ∧
      (∀ e, inv.head? = some e → e.2 = w.thread) ∧
      (invokeLoop T sg n w).mem = w.mem ∧ (invokeLoop T sg n w).out = w.out := by
  induction n generalizing w with
  | zero => exact ⟨[], by simp [invokeLoop], rfl, by simp, rfl, rfl⟩
  | succ n ih =>
    obtain ⟨inv, htr, hc, _, hmem, hout⟩ := ih (w.invoke T .REMOTE_RDMA_WRITE sg)
    rw [invokeLoop_front]
    refine ⟨(Call.invoke .REMOTE_RDMA_WRITE sg, w.thread) :: inv, ?_, ?_, ?_, ?_, ?_⟩
    · rw [htr]
      simp [World.invoke, World.call]
    · simp [calls, List.replicate_succ] at hc ⊢
      exact hc
    · intro e he
      simp at he
      rw [← he]
    · rw [hmem]
      rfl
    · rw [hout]
      rfl

theorem waitLoop_shape {σ : Type} (T : Transport σ) (fuel : Nat) (w : World σ) :
    ∃ w2 polls, (waitLoop T fuel w).world? = some w2 ∧ w2.trace = w.trace ++ polls ∧
      (∀ c ∈ calls polls, ∃ k, c = Call.checkCompleted .LOCAL_WRITE k) ∧
      (0 < fuel → ∃ rest, polls =
        (Call.checkCompleted .LOCAL_WRITE (T.checkCompleted .LOCAL_WRITE w.thread).1, w.thread)
          :: rest) ∧
      w2.mem = w.mem := by
  induction fuel generalizing w with
  | zero => exact ⟨w, [], rfl, by simp, by simp [calls], fun h => absurd h (Nat.lt_irrefl 0), rfl⟩
  | succ fuel ih =>
    by_cases hc : ((w.checkCompleted T .LOCAL_WRITE).1 != 1) = true
    · obtain ⟨w2, polls, hw, htr, hall, _, hmem⟩ :=
        ih (((((w.checkCompleted T .LOCAL_WRITE).2.checkCompleted T .LOCAL_WRITE).2.print
          (.waiting ((w.checkCompleted T .LOCAL_WRITE).2.checkCompleted T .LOCAL_WRITE).1)).print
            .cool))
      refine ⟨w2,
        (Call.checkCompleted .LOCAL_WRITE (T.checkCompleted .LOCAL_WRITE w.thread).1, w.thread) ::
          (Call.checkCompleted .LOCAL_WRITE
            (T.checkCompleted .LOCAL_WRITE (T.checkCompleted .LOCAL_WRITE w.thread).2).1,
            (T.checkCompleted .LOCAL_WRITE w.thread).2) :: polls,
        ?_, ?_, ?_, fun _ => ⟨_, rfl⟩, ?_⟩
      · simp only [waitLoop, hc, if_true]
        exact hw
      · rw [htr]
        simp [World.checkCompleted, World.call, World.print]
      · intro c hcm
        simp only [calls, List.map_cons, List.mem_cons] at hcm
        rcases hcm with h | h | h
        · exact ⟨_, h⟩
        · exact ⟨_, h⟩
        · exact hall c h
      · rw [hmem]
        rfl
    · refine ⟨(w.checkCompleted T .LOCAL_WRITE).2,
        [(Call.checkCompleted .LOCAL_WRITE (T.checkCompleted .LOCAL_WRITE w.thread).1, w.thread)],
        ?_, ?_, ?_, fun _ => ⟨_, rfl⟩, rfl⟩
      · simp only [waitLoop, hc]
        rfl
      · simp [World.checkCompleted, World.call]
      · intro c hcm
        simp only [calls, List.map_cons, List.map_nil, List.mem_singleton] at hcm
        exact ⟨_, hcm⟩

theorem run_eq {σ : Type} (T : Transport σ) (fuel : Nat) (w : World σ) (sg : rdmaSg)
    (n_runs : Nat) (m : Mem) (h : initLoop (sg.len / sizeofInt) w.mem = some m) :
    run_write_only T fuel w sg n_runs =
      waitLoop T fuel (invokeLoop T sg n_runs
        ((World.clearCompleted T { w with mem := m }).connSync T IS_CLIENT)) := by
  simp [run_write_only, h]

theorem run_shape {σ : Type} (T : Transport σ) (fuel : Nat) (w : World σ) (sg : rdmaSg)
    (n_runs : Nat) (h : sg.len / sizeofInt ≤ w.mem.length) :
    ∃ m inv polls w2, initLoop (sg.len / sizeofInt) w.mem = some m ∧
      (run_write_only T fuel w sg n_runs).world? = some w2 ∧ w2.mem = m ∧
      w2.trace = w.trace ++ (Call.clearCompleted, w.thread) ::
        (Call.connSync IS_CLIENT, T.clearCompleted w.thread) :: (inv ++ polls) ∧
      calls inv = List.replicate n_runs (Call.invoke .REMOTE_RDMA_WRITE sg) ∧
      (∀ e, inv.head? = some e → e.2 = T.connSync IS_CLIENT (T.clearCompleted w.thread)) ∧
      (∀ c ∈ calls polls, ∃ k, c = Call.checkCompleted .LOCAL_WRITE k) ∧
      (0 < fuel → ∃ k rest, calls polls = Call.checkCompleted .LOCAL_WRITE k :: rest) := by
  obtain ⟨m, hm, -, -, -⟩ := initLoop_spec _ _ h
  obtain ⟨inv, hitr, hic, hih, himem, -⟩ := invokeLoop_shape T sg n_runs
    ((World.clearCompleted T { w with mem := m }).connSync T IS_CLIENT)
  obtain ⟨w2, polls, hw, htr, hall, hhead, hmem⟩ := waitLoop_shape T fuel
    (invokeLoop T sg n_runs ((World.clearCompleted T { w with mem := m }).connSync T IS_CLIENT))
  refine ⟨m, inv, polls, w2, hm, ?_, ?_, ?_, hic, ?_, hall, ?_⟩
  · rw [run_eq T fuel w sg n_runs m hm]
    exact hw
  · rw [hmem, himem]
    rfl
  · rw [htr, hitr]
    simp [World.clearCompleted, World.connSync, World.call]
  · intro e he
    rw [hih e he]
    rfl
  · intro hf
    obtain ⟨rest, hr⟩ := hhead hf
    exact ⟨_, calls rest, by rw [hr]; rfl⟩

/-! ## The wait loop -/

theorem lastObserved_concat {σ : Type} (tr : List (Call × σ)) (k : Nat) (s : σ) :
    lastObserved (tr ++ [(Call.checkCompleted .LOCAL_WRITE k, s)]) = some k := by
  simp [lastObserved, calls, List.filterMap_append, Call.localWriteCount?]

theorem waitLoop_zero_count {σ : Type} (T : Transport σ)
    (hzero : ∀ s, (T.checkCompleted .LOCAL_WRITE s).1 = 0) (fuel : Nat) (w : World σ) :
    ∃ w2, waitLoop T fuel w = .running w2 ∧ w2.out = w.out ++ progressLines 0 fuel := by
  induction fuel generalizing w with
  | zero => exact ⟨w, rfl, by simp [progressLines]⟩
  | succ fuel ih =>
    obtain ⟨w2, hw, hout⟩ := ih
      ((((w.checkCompleted T .LOCAL_WRITE).2.checkCompleted T .LOCAL_WRITE).2.print
        (.waiting ((w.checkCompleted T .LOCAL_WRITE).2.checkCompleted T .LOCAL_WRITE).1)).print
          .cool)
    refine ⟨w2, ?_, ?_⟩
    · simp only [waitLoop, World.checkCompleted, hzero] at hw ⊢
      exact hw
    · rw [hout]
      simp [World.checkCompleted, World.print, World.call, hzero, progressLines]

theorem waitLoop_seq_running (vals : Nat → Nat) (fuel : Nat) (w : World Nat)
    (h : ∀ j, j < fuel → vals (w.thread + 2 * j) ≠ 1) :
    ∃ w2, waitLoop (seqTransport vals) fuel w = .running w2 := by
  induction fuel generalizing w with
  | zero => exact ⟨w, rfl⟩
  | succ fuel ih =>
    have h0 : vals w.thread ≠ 1 := by simpa using h 0 (Nat.succ_pos _)
    have hc : ((w.checkCompleted (seqTransport vals) .LOCAL_WRITE).1 != 1) = true := by
      simpa [World.checkCompleted, seqTransport] using h0
    simp only [waitLoop, hc, if_true]
    apply ih
    intro j hj
    have := h (j + 1) (by omega)
    simp only [World.print, World.checkCompleted, World.call, seqTransport]
    rw [show w.thread + 1 + 1 + 2 * j = w.thread + 2 * (j + 1) by ring]
    exact this

theorem waitLoop_seq_returns (vals : Nat → Nat) (j : Nat) (fuel : Nat) (w : World Nat)
    (hbefore : ∀ i, i < j → vals (w.thread + 2 * i) ≠ 1)
    (hone : vals (w.thread + 2 * j) = 1) (hfuel : j < fuel) :
    ∃ w2, waitLoop (seqTransport vals) fuel w = .returned w2 ∧
      w2.thread = w.thread + (2 * j + 1) ∧ lastObserved w2.trace = some 1 := by
  induction j generalizing w fuel with
  | zero =>
    obtain ⟨fuel, rfl⟩ : ∃ f, fuel = f + 1 := ⟨fuel - 1, by omega⟩
    have h1 : vals w.thread = 1 := by simpa using hone
    have hc : ¬ ((w.checkCompleted (seqTransport vals) .LOCAL_WRITE).1 != 1) = true := by
      simp [World.checkCompleted, seqTransport, h1]
    refine ⟨(w.checkCompleted (seqTransport vals) .LOCAL_WRITE).2, ?_, rfl, ?_⟩
    · simp only [waitLoop, hc]
      rfl
    · simp only [World.checkCompleted, World.call, seqTransport, h1]
      exact lastObserved_concat _ _ _
  | succ j ih =>
    obtain ⟨fuel, rfl⟩ : ∃ f, fuel = f + 1 := ⟨fuel - 1, by omega⟩
    have h0 : vals w.thread ≠ 1 := by simpa using hbefore 0 (Nat.succ_pos _)
    have hc : ((w.checkCompleted (seqTransport vals) .LOCAL_WRITE).1 != 1) = true := by
      simpa [World.checkCompleted, seqTransport] using h0
    simp only [waitLoop, hc, if_true]
    obtain ⟨w2, hw, hth, hlast⟩ := ih fuel
      ((((w.checkCompleted (seqTransport vals) .LOCAL_WRITE).2.checkCompleted
        (seqTransport vals) .LOCAL_WRITE).2.print
        (.waiting ((w.checkCompleted (seqTransport vals) .LOCAL_WRITE).2.checkCompleted
          (seqTransport vals) .LOCAL_WRITE).1)).print .cool)
      (by
        intro i hi
        have := hbefore (i + 1) (by omega)
        simp only [World.print, World.checkCompleted, World.call, seqTransport]
        rw [show w.thread + 1 + 1 + 2 * i = w.thread + 2 * (i + 1) by ring]
        exact this)
      (by
        simp only [World.print, World.checkCompleted, World.call, seqTransport]
        rw [show w.thread + 1 + 1 + 2 * j = w.thread + 2 * (j + 1) by ring]
        exact hone)
      (by omega)
    refine ⟨w2, hw, ?_, hlast⟩
    rw [hth]
    simp only [World.print, World.checkCompleted, World.call, seqTransport]
    ring

theorem invokeLoop_seq_thread (vals : Nat → Nat) (sg : rdmaSg) (n : Nat) (w : World Nat) :
    (invokeLoop (seqTransport vals) sg n w).thread = w.thread := by
  induction n with
  | zero => rfl
  | succ n ih =>
    show ((invokeLoop (seqTransport vals) sg n w).invoke (seqTransport vals)
      .REMOTE_RDMA_WRITE sg).thread = _
    simp only [World.invoke, World.call, seqTransport]
    exact ih

theorem invokeLoop_out {σ : Type} (T : Transport σ) (sg : rdmaSg) (n : Nat) (w : World σ) :
    (invokeLoop T sg n w).out = w.out := by
  obtain ⟨_, _, _, _, _, h⟩ := invokeLoop_shape T sg n w
  exact h

/-! ## Buffer initialisation -/

/-- C2: for a descriptor length below `2^32` and a buffer of at least
`len / sizeof(int)` elements, the initialisation loop of `run_write_only` ends
without a store outside the buffer, leaves `mem[i] = i` for every
`i < len / sizeof(int)`, leaves every other element and the length of the
buffer as they were, and this is the buffer of the world the run ends in. -/
theorem init_writes_first_elements {σ : Type} (T : Transport σ) (fuel : Nat) (w : World σ)
    (sg : rdmaSg) (n_runs : Nat) (hlen : sg.len < 2 ^ 32)
    (hmem : sg.len / sizeofInt ≤ w.mem.length) :
    ∃ m, initLoop (sg.len / sizeofInt) w.mem = some m ∧
      (run_write_only T fuel w sg n_runs).world?.map World.mem = some m ∧
      m.length = w.mem.length ∧
      (∀ i, i < sg.len / sizeofInt → m[i]? = some (i : Int)) ∧
      (∀ i, sg.len / sizeofInt ≤ i → m[i]? = w.mem[i]?) := by
  obtain ⟨m, hm, hl, hlo, hhi⟩ := initLoop_spec _ _ hmem
  obtain ⟨m2, -, -, w2, hm2, hw, hwm, -⟩ := run_shape T fuel w sg n_runs hmem
  have hmm : m2 = m := Option.some.inj (hm2.symm.trans hm)
  refine ⟨m, hm, ?_, hl, ?_, hhi⟩
  · rw [hw, Option.map_some', hwm, hmm]
  · intro i hi
    rw [hlo i hi, intOfUInt_small]
    have : sg.len / sizeofInt ≤ sg.len := Nat.div_le_self _ _
    have h4 : sg.len / sizeofInt * 4 ≤ sg.len := Nat.div_mul_le_self _ _
    omega

/-- C2 at a 64-byte descriptor over a buffer of twenty elements. -/
theorem init_writes_first_elements_witness :
    (sg64.len < 2 ^ 32 ∧ sg64.len / sizeofInt ≤ demoWorld.mem.length) ∧
    ∃ m, initLoop (sg64.len / sizeofInt) demoWorld.mem = some m ∧
      (run_write_only (seqTransport fun _ => 1) 1 demoWorld sg64 1).world?.map World.mem
        = some m ∧
      m.length = demoWorld.mem.length ∧
      (∀ i, i < sg64.len / sizeofInt → m[i]? = some (i : Int)) ∧
      (∀ i, sg64.len / sizeofInt ≤ i → m[i]? = demoWorld.mem[i]?) :=
  ⟨⟨by decide, by decide⟩,
    init_writes_first_elements (seqTransport fun _ => 1) 1 demoWorld sg64 1 (by decide)
      (by decide)⟩

/-! ## The order of the transport calls -/

/-- C4: the calls of one round are `clearCompleted`, `connSync(IS_CLIENT)`,
then `n_runs` times `invoke(REMOTE_RDMA_WRITE, sg)` with nothing in between,
then only queries of the `LOCAL_WRITE` count; so the round holds exactly
`n_runs` invoke calls. -/
theorem invokes_are_one_burst {σ : Type} (T : Transport σ) (fuel : Nat) (w : World σ)
    (sg : rdmaSg) (n_runs : Nat) (hmem : sg.len / sizeofInt ≤ w.mem.length) :
    ∃ w2 polls, (run_write_only T fuel w sg n_runs).world? = some w2 ∧
      callsSince w.trace w2.trace =
        [Call.clearCompleted, Call.connSync IS_CLIENT] ++
          List.replicate n_runs (Call.invoke .REMOTE_RDMA_WRITE sg) ++ polls ∧
      (∀ c ∈ polls, ∃ k, c = Call.checkCompleted .LOCAL_WRITE k) ∧
      (callsSince w.trace w2.trace).countP Call.isInvoke = n_runs := by
  obtain ⟨m, inv, polls, w2, -, hw, -, htr, hinv, -, hall, -⟩ :=
    run_shape T fuel w sg n_runs hmem
  have hcs : callsSince w.trace w2.trace =
      [Call.clearCompleted, Call.connSync IS_CLIENT] ++
        List.replicate n_runs (Call.invoke .REMOTE_RDMA_WRITE sg) ++ calls polls := by
    rw [htr, callsSince_append, ← hinv]
    simp [calls]
  have hzero : (calls polls).countP Call.isInvoke = 0 := by
    rw [List.countP_eq_zero]
    intro c hc
    obtain ⟨k, rfl⟩ := hall c hc
    simp [Call.isInvoke]
  refine ⟨w2, calls polls, hw, hcs, hall, ?_⟩
  rw [hcs, List.countP_append, List.countP_append, hzero, List.countP_replicate]
  simp [Call.isInvoke, List.countP_cons]

/-- C4 at `n_runs = 1` and a 64-byte descriptor: exactly one operation. -/
theorem invokes_are_one_burst_witness :
    sg64.len / sizeofInt ≤ demoWorld.mem.length ∧
    ∃ w2 polls, (run_write_only (seqTransport fun _ => 1) 1 demoWorld sg64 1).world? = some w2 ∧
      callsSince demoWorld.trace w2.trace =
        [Call.clearCompleted, Call.connSync IS_CLIENT] ++
          List.replicate 1 (Call.invoke .REMOTE_RDMA_WRITE sg64) ++ polls ∧
      (∀ c ∈ polls, ∃ k, c = Call.checkCompleted .LOCAL_WRITE k) ∧
      (callsSince demoWorld.trace w2.trace).countP Call.isInvoke = 1 :=
  ⟨by decide, invokes_are_one_burst (seqTransport fun _ => 1) 1 demoWorld sg64 1 (by decide)⟩

/-- C5: the second call of a round is `connSync` with the client flag, the only
call before it is `clearCompleted`, no later call of the round is a `connSync`
(so it is called exactly once), and every `invoke` of the round has that
`connSync` among the calls before it. -/
theorem barrier_once_before_invokes {σ : Type} (T : Transport σ) (fuel : Nat) (w : World σ)
    (sg : rdmaSg) (n_runs : Nat) (hmem : sg.len / sizeofInt ≤ w.mem.length) :
    ∃ w2 rest, (run_write_only T fuel w sg n_runs).world? = some w2 ∧
      callsSince w.trace w2.trace = Call.clearCompleted :: Call.connSync true :: rest ∧
      (∀ c ∈ rest, c.isConnSync = false) ∧
      (callsSince w.trace w2.trace).filter Call.isConnSync = [Call.connSync true] ∧
      (∀ pre c post, callsSince w.trace w2.trace = pre ++ c :: post → c.isInvoke = true →
        Call.connSync true ∈ pre) := by
  obtain ⟨m, inv, polls, w2, -, hw, -, htr, hinv, -, hall, -⟩ :=
    run_shape T fuel w sg n_runs hmem
  have hcs : callsSince w.trace w2.trace =
      Call.clearCompleted :: Call.connSync true :: (calls inv ++ calls polls) := by
    rw [htr, callsSince_append]
    simp [calls, IS_CLIENT]
  have hrest : ∀ c ∈ calls inv ++ calls polls, c.isConnSync = false := by
    intro c hc
    rcases List.mem_append.mp hc with h | h
    · rw [hinv] at h
      rw [List.eq_of_mem_replicate h]
      rfl
    · obtain ⟨k, rfl⟩ := hall c h
      rfl
  refine ⟨w2, calls inv ++ calls polls, hw, hcs, hrest, ?_, ?_⟩
  · rw [hcs]
    have hnil : (calls inv ++ calls polls).filter Call.isConnSync = [] := by
      rw [List.filter_eq_nil_iff]
      intro c hc
      simp [hrest c hc]
    simp [List.filter_cons, Call.isConnSync, hnil]
  · intro pre c post hsplit hc
    rw [hcs] at hsplit
    match pre, hsplit with
    | [], h =>
      simp at h
      rw [← h.1] at hc
      simp [Call.isInvoke] at hc
    | [x], h =>
      simp at h
      rw [← h.2.1] at hc
      simp [Call.isInvoke] at hc
    | x :: y :: pre2, h =>
      simp at h
      simp [h.2.1]

/-- C5 on a run of two operations against a transport that reports one
completion at once. -/
theorem barrier_once_before_invokes_witness :
    sg64.len / sizeofInt ≤ demoWorld.mem.length ∧
    ∃ w2 rest, (run_write_only (seqTransport fun _ => 1) 1 demoWorld sg64 2).world? = some w2 ∧
      callsSince demoWorld.trace w2.trace = Call.clearCompleted :: Call.connSync true :: rest ∧
      (∀ c ∈ rest, c.isConnSync = false) ∧
      (callsSince demoWorld.trace w2.trace).filter Call.isConnSync = [Call.connSync true] ∧
      (∀ pre c post, callsSince demoWorld.trace w2.trace = pre ++ c :: post →
        c.isInvoke = true → Call.connSync true ∈ pre) :=
  ⟨by decide, barrier_once_before_invokes (seqTransport fun _ => 1) 1 demoWorld sg64 2 (by decide)⟩

/-! ## `main` -/

/-- C7: with an empty server address `main` exits with `EXIT_FAILURE`, which is
not zero, after the error line only: its history holds no transport call at all
(no thread construction, no `initRDMA`, no call of the round), whatever `size`
and `n_runs` are. -/
theorem missing_address_exits_before_transport {σ : Type} (T : Transport σ) (fuel : Nat)
    (server_ip : String) (size n_runs : Nat) (hip : server_ip.isEmpty = true) :
    main T fuel server_ip size n_runs = .exit EXIT_FAILURE [] [.errNoServer] ∧
      EXIT_FAILURE ≠ 0 := by
  refine ⟨?_, by decide⟩
  simp [main, hip]

/-- C7 at the empty address, 64 bytes and two runs. -/
theorem missing_address_exits_before_transport_witness :
    "".isEmpty = true ∧
    (main (mockTransport 1 0) 3 "" 64 2 = .exit EXIT_FAILURE [] [.errNoServer] ∧
      EXIT_FAILURE ≠ 0) :=
  ⟨by decide, missing_address_exits_before_transport (mockTransport 1 0) 3 "" 64 2 (by decide)⟩

/-- C8: with a server address and a successful `initRDMA`, when the round
returns in the world `w`, `main` exits with `EXIT_SUCCESS = 0` and its history
is that of `w` followed by one more call, `connSync` with the client flag; so
the calls of the whole run are the construction, `initRDMA`, the round
(`clearCompleted`, `connSync`, the invokes, the completion queries) and the
closing `connSync` last. -/
theorem closing_sync_then_success {σ : Type} (T : Transport σ) (fuel : Nat)
    (server_ip : String) (size n_runs : Nat) (mem : Mem) (t1 : σ) (w : World σ)
    (hip : server_ip.isEmpty = false)
    (hinit : T.initRDMA size server_ip T.cThread = (some mem, t1))
    (hround : run_write_only T fuel (roundStart size server_ip T.cThread t1 mem)
      { len := size } n_runs = .returned w) :
    main T fuel server_ip size n_runs =
        .exit EXIT_SUCCESS (w.trace ++ [(Call.connSync true, w.thread)]) (w.out ++ [.veryCool]) ∧
      EXIT_SUCCESS = 0 ∧
      ∃ polls, (∀ c ∈ polls, ∃ k, c = Call.checkCompleted .LOCAL_WRITE k) ∧
        calls (w.trace ++ [(Call.connSync true, w.thread)]) =
          [Call.cThread, Call.initRDMA size server_ip true, Call.clearCompleted,
              Call.connSync true] ++
            List.replicate n_runs (Call.invoke .REMOTE_RDMA_WRITE { len := size }) ++ polls ++
            [Call.connSync true] := by
  refine ⟨?_, rfl, ?_⟩
  · simp only [main, hip, hinit, hround]
    rfl
  · have hmem : size / sizeofInt ≤ mem.length := by
      by_contra hlt
      have hnone := initLoop_none (size / sizeofInt) mem (by omega)
      simp [run_write_only, roundStart, hnone] at hround
    obtain ⟨m, inv, polls, w2, -, hw, -, htr, hinv, -, hall, -⟩ :=
      run_shape T fuel (roundStart size server_ip T.cThread t1 mem) { len := size } n_runs hmem
    rw [hround] at hw
    have hw2 : w = w2 := Option.some.inj hw
    subst hw2
    refine ⟨calls polls, hall, ?_⟩
    rw [htr]
    simp [calls, roundStart, IS_CLIENT] at hinv ⊢
    rw [hinv]

/-- C8 on the counting mock: one run of 64 bytes, completed at the first query. -/
theorem closing_sync_then_success_witness :
    ∃ w, ("10.0.0.1".isEmpty = false ∧
      (mockTransport 1 0).initRDMA 64 "10.0.0.1" (mockTransport 1 0).cThread =
        (some (List.replicate 16 0), { completed := 0, inflight := 0 }) ∧
      run_write_only (mockTransport 1 0) 1
        (roundStart 64 "10.0.0.1" (mockTransport 1 0).cThread { completed := 0, inflight := 0 }
          (List.replicate 16 0)) { len := 64 } 1 = .returned w) ∧
    (main (mockTransport 1 0) 1 "10.0.0.1" 64 1 =
        .exit EXIT_SUCCESS (w.trace ++ [(Call.connSync true, w.thread)]) (w.out ++ [.veryCool]) ∧
      EXIT_SUCCESS = 0 ∧
      ∃ polls, (∀ c ∈ polls, ∃ k, c = Call.checkCompleted .LOCAL_WRITE k) ∧
        calls (w.trace ++ [(Call.connSync true, w.thread)]) =
          [Call.cThread, Call.initRDMA 64 "10.0.0.1" true, Call.clearCompleted,
              Call.connSync true] ++
            List.replicate 1 (Call.invoke .REMOTE_RDMA_WRITE { len := 64 }) ++ polls ++
            [Call.connSync true]) :=
  ⟨_, ⟨by decide, rfl, rfl⟩,
    closing_sync_then_success (mockTransport 1 0) 1 "10.0.0.1" 64 1 (List.replicate 16 0)
      { completed := 0, inflight := 0 } _ (by decide) rfl rfl⟩

/-! ## Completion accounting -/

/-- C1: on two runs against the counting mock that completes one operation for
each query, `run_write_only` returns at the first query: two operations were
invoked, the last count it observed is `1`, not `2`, and one operation is still
in flight. -/
theorem returns_at_count_one_of_two :
    ∃ w, run_write_only (mockTransport 1 0) 1 (mockWorld 0) sg64 2 = .returned w ∧
      (callsSince (mockWorld 0).trace w.trace).countP Call.isInvoke = 2 ∧
      lastObserved w.trace = some 1 ∧ lastObserved w.trace ≠ some 2 ∧
      w.thread = { completed := 1, inflight := 1 } :=
  ⟨_, rfl, by decide, by decide, by decide, by decide⟩

/-- C3, as stated, fails: with `runs = 0` and a server address, against a
transport that reports the count `1`, `main` exits with `EXIT_SUCCESS` and its
history holds a query of the `LOCAL_WRITE` count. -/
theorem zero_runs_not_rejected :
    main (seqTransport fun _ => 1) 1 "10.0.0.1" 64 0 =
      .exit EXIT_SUCCESS
        [(.cThread, 0), (.initRDMA 64 "10.0.0.1" true, 0), (.clearCompleted, 0),
          (.connSync true, 0), (.checkCompleted .LOCAL_WRITE 1, 0), (.connSync true, 1)]
        [.header "RDMA BENCHMARK: CLIENT", .veryCool] := by
  decide

/-- C3, amended: with `n_runs = 0` a round invokes no operation, yet it is not
rejected: it calls `clearCompleted` and `connSync` and then enters the wait,
which queries the `LOCAL_WRITE` count at once; and `main` with a server address
and `runs = 0` never exits with a code other than `EXIT_SUCCESS`. -/
theorem zero_runs_still_waits {σ : Type} (T : Transport σ) (fuel : Nat) (w : World σ)
    (sg : rdmaSg) (hmem : sg.len / sizeofInt ≤ w.mem.length) :
    (∃ w2 k polls, (run_write_only T (fuel + 1) w sg 0).world? = some w2 ∧
      callsSince w.trace w2.trace =
        Call.clearCompleted :: Call.connSync IS_CLIENT ::
          Call.checkCompleted .LOCAL_WRITE k :: polls ∧
      (∀ c ∈ polls, ∃ k2, c = Call.checkCompleted .LOCAL_WRITE k2) ∧
      (callsSince w.trace w2.trace).countP Call.isInvoke = 0) ∧
    (∀ server_ip size code tr out, server_ip.isEmpty = false →
      main T fuel server_ip size 0 = .exit code tr out → code = EXIT_SUCCESS) := by
  constructor
  · obtain ⟨m, inv, polls, w2, -, hw, -, htr, hinv, -, hall, hhead⟩ :=
      run_shape T (fuel + 1) w sg 0 hmem
    obtain ⟨k, rest, hrest⟩ := hhead (Nat.succ_pos _)
    have hinv0 : inv = [] := by simpa [calls] using hinv
    have hcs : callsSince w.trace w2.trace =
        Call.clearCompleted :: Call.connSync IS_CLIENT ::
          Call.checkCompleted .LOCAL_WRITE k :: rest := by
      rw [htr, callsSince_append, hinv0, List.nil_append, ← hrest]
      simp [calls]
    have hall2 : ∀ c ∈ rest, ∃ k2, c = Call.checkCompleted .LOCAL_WRITE k2 := by
      intro c hc
      exact hall c (by rw [hrest]; exact List.mem_cons_of_mem _ hc)
    refine ⟨w2, k, rest, hw, hcs, hall2, ?_⟩
    rw [hcs, List.countP_eq_zero]
    intro c hc
    simp only [List.mem_cons] at hc
    rcases hc with rfl | rfl | rfl | hc
    · simp [Call.isInvoke]
    · simp [Call.isInvoke]
    · simp [Call.isInvoke]
    · obtain ⟨k2, rfl⟩ := hall2 c hc
      simp [Call.isInvoke]
  · intro server_ip size code tr out hip hmain
    simp only [main, hip, Bool.false_eq_true, if_false] at hmain
    split at hmain
    · exact absurd hmain (by simp)
    · split at hmain
      · simp only [MainOutcome.exit.injEq] at hmain
        exact hmain.1.symm
      · exact absurd hmain (by simp)
      · exact absurd hmain (by simp)

/-- C3, amended, at a 64-byte descriptor against a transport that reports the
count `1`. -/
theorem zero_runs_still_waits_witness :
    sg64.len / sizeofInt ≤ demoWorld.mem.length ∧
    ((∃ w2 k polls,
      (run_write_only (seqTransport fun _ => 1) (0 + 1) demoWorld sg64 0).world? = some w2 ∧
      callsSince demoWorld.trace w2.trace =
        Call.clearCompleted :: Call.connSync IS_CLIENT ::
          Call.checkCompleted .LOCAL_WRITE k :: polls ∧
      (∀ c ∈ polls, ∃ k2, c = Call.checkCompleted .LOCAL_WRITE k2) ∧
      (callsSince demoWorld.trace w2.trace).countP Call.isInvoke = 0) ∧
    (∀ server_ip size code tr out, server_ip.isEmpty = false →
      main (seqTransport fun _ => 1) 0 server_ip size 0 = .exit code tr out →
        code = EXIT_SUCCESS)) :=
  ⟨by decide, zero_runs_still_waits (seqTransport fun _ => 1) 0 demoWorld sg64 (by decide)⟩

/-- C6: over the counting mock with a slow barrier, from a fresh thread, a
first round of two runs returns at the count `1` with one of its operations
still in flight; in the second round `clearCompleted` sets the counter to `0`,
that operation completes during `connSync`, and the first `invoke` of the
second round is made with the counter at `1`, not `0`: a completion of the
first round is counted in the second. -/
theorem stale_completion_reaches_second_round :
    ∃ w1 w2 rest,
      run_write_only (lateTransport 1) 1 (mockWorld 0) sg64 2 = .returned w1 ∧
      w1.thread = { completed := 1, inflight := 1 } ∧
      (run_write_only (lateTransport 1) 1 w1 sg64 1).world? = some w2 ∧
      w2.trace = w1.trace ++
        (Call.clearCompleted, { completed := 1, inflight := 1 }) ::
        (Call.connSync true, { completed := 0, inflight := 1 }) ::
        (Call.invoke .REMOTE_RDMA_WRITE sg64, { completed := 1, inflight := 0 }) :: rest :=
  ⟨_, _, _, rfl, rfl, rfl, rfl⟩

/-! ## Liveness of the wait -/

/-- C9: when every query of the `LOCAL_WRITE` count reports `0`, then for every
`n_runs` and every amount of fuel the run is still in the wait loop when the
fuel is used up: it has not returned and has reported no failure, and its
output is one progress report (the line with the count `0`, then `cool`) for
each iteration. -/
theorem never_returns_without_completion {σ : Type} (T : Transport σ) (w : World σ)
    (sg : rdmaSg) (n_runs : Nat) (hmem : sg.len / sizeofInt ≤ w.mem.length)
    (hzero : ∀ s, (T.checkCompleted .LOCAL_WRITE s).1 = 0) (fuel : Nat) :
    ∃ w2, run_write_only T fuel w sg n_runs = .running w2 ∧
      w2.out = w.out ++ progressLines 0 fuel := by
  obtain ⟨m, hm, -⟩ := initLoop_spec _ _ hmem
  obtain ⟨w2, hw, hout⟩ := waitLoop_zero_count T hzero fuel
    (invokeLoop T sg n_runs ((World.clearCompleted T { w with mem := m }).connSync T IS_CLIENT))
  refine ⟨w2, ?_, ?_⟩
  · rw [run_eq T fuel w sg n_runs m hm]
    exact hw
  · rw [hout, invokeLoop_out]
    rfl

/-- C9 on three runs against the scripted transport that always reports `0`,
stopped after five iterations. -/
theorem never_returns_without_completion_witness :
    (sg64.len / sizeofInt ≤ demoWorld.mem.length ∧
      ∀ s, ((seqTransport fun _ => 0).checkCompleted .LOCAL_WRITE s).1 = 0) ∧
    ∃ w2, run_write_only (seqTransport fun _ => 0) 5 demoWorld sg64 3 = .running w2 ∧
      w2.out = demoWorld.out ++ progressLines 0 5 :=
  ⟨⟨by decide, fun _ => rfl⟩,
    never_returns_without_completion (seqTransport fun _ => 0) demoWorld sg64 3 (by decide)
      (fun _ => rfl) 5⟩

/-- C10: against a scripted transport, where the loop condition of the wait
makes the queries number `w.thread`, `w.thread + 2`, `w.thread + 4`, ... (the
body makes the ones in between): if none of these is answered with `1`, the run
is still in the wait loop after any number of iterations, whatever `n_runs`
and the counts reported are; and if the `j`-th of them is the first answered
with `1`, the run returns right after that query, having observed the count
`1`, whatever `n_runs` is. -/
theorem wait_exits_only_on_count_one (vals : Nat → Nat) (w : World Nat) (sg : rdmaSg)
    (n_runs : Nat) (hmem : sg.len / sizeofInt ≤ w.mem.length) :
    ((∀ j, vals (w.thread + 2 * j) ≠ 1) →
      ∀ fuel, ∃ w2, run_write_only (seqTransport vals) fuel w sg n_runs = .running w2) ∧
    (∀ j, (∀ i, i < j → vals (w.thread + 2 * i) ≠ 1) → vals (w.thread + 2 * j) = 1 →
      ∀ fuel, j < fuel →
        ∃ w2, run_write_only (seqTransport vals) fuel w sg n_runs = .returned w2 ∧
          w2.thread = w.thread + (2 * j + 1) ∧ lastObserved w2.trace = some 1) := by
  obtain ⟨m, hm, -⟩ := initLoop_spec _ _ hmem
  have hth : (invokeLoop (seqTransport vals) sg n_runs
      ((World.clearCompleted (seqTransport vals) { w with mem := m }).connSync
        (seqTransport vals) IS_CLIENT)).thread = w.thread := by
    rw [invokeLoop_seq_thread]
    rfl
  constructor
  · intro hnever fuel
    rw [run_eq (seqTransport vals) fuel w sg n_runs m hm]
    apply waitLoop_seq_running
    intro j _
    rw [hth]
    exact hnever j
  · intro j hbefore hone fuel hfuel
    rw [run_eq (seqTransport vals) fuel w sg n_runs m hm]
    obtain ⟨w2, hw, hthread, hlast⟩ := waitLoop_seq_returns vals j fuel
      (invokeLoop (seqTransport vals) sg n_runs
        ((World.clearCompleted (seqTransport vals) { w with mem := m }).connSync
          (seqTransport vals) IS_CLIENT))
      (by rw [hth]; exact hbefore) (by rw [hth]; exact hone) hfuel
    exact ⟨w2, hw, by rw [hthread, hth], hlast⟩

/-- C10 on two runs: against the counts `0, 0, 2, 2, ...` the run is still
waiting after seven iterations although two completions are counted; against
`0, 0, 1, 1, ...` it returns at the second query of the loop condition. -/
theorem wait_exits_only_on_count_one_witness :
    (sg64.len / sizeofInt ≤ demoWorld.mem.length ∧
      (∀ j, (fun q => if q < 2 then 0 else 2) (demoWorld.thread + 2 * j) ≠ 1) ∧
      (∀ i, i < 1 → (fun q => if q < 2 then 0 else 1) (demoWorld.thread + 2 * i) ≠ 1) ∧
      (fun q => if q < 2 then 0 else 1) (demoWorld.thread + 2 * 1) = 1 ∧ 1 < 2) ∧
    (∃ w2, run_write_only (seqTransport fun q => if q < 2 then 0 else 2) 7 demoWorld sg64 2
      = .running w2) ∧
    (∃ w2, run_write_only (seqTransport fun q => if q < 2 then 0 else 1) 2 demoWorld sg64 2
      = .returned w2 ∧
      w2.thread = demoWorld.thread + (2 * 1 + 1) ∧ lastObserved w2.trace = some 1) :=
  ⟨⟨by decide, fun j => by
        show (if demoWorld.thread + 2 * j < 2 then 0 else 2) ≠ 1
        split <;> decide,
      fun i hi => by
        obtain rfl : i = 0 := by omega
        decide,
      by decide, by decide⟩,
    (wait_exits_only_on_count_one (fun q => if q < 2 then 0 else 2) demoWorld sg64 2
      (by decide)).1 (fun j => by
        show (if demoWorld.thread + 2 * j < 2 then 0 else 2) ≠ 1
        split <;> decide) 7,
    (wait_exits_only_on_count_one (fun q => if q < 2 then 0 else 1) demoWorld sg64 2
      (by decide)).2 1
      (fun i hi => by
        obtain rfl : i = 0 := by omega
        decide)
      (by decide) 2 (by decide)⟩

end SimpleClient
